import Mathlib

set_option maxHeartbeats 1000000

/-!
Shallow embedding of `src/lib/SPSCQueue.h`, a single-producer single-consumer
lock-free ring buffer.  Machine integers (`size_t`) are modelled as `Nat` with
explicit reduction modulo `2 ^ 64` wherever the C++ arithmetic can wrap.
The raw backing store `_slots` is modelled as a total map from physical slot
index to `Option α`: `some v` means a `T` object is currently alive in that
slot, `none` means the slot holds raw (unconstructed) memory.

Methods are embedded as state-passing functions over the `SPSCQueue` record,
one per C++ member function, following the source line by line.  A method
call is a single atomic step of the sequential (interleaved) semantics; the
producer/consumer index caches `_writeIndexCache` / `_readIndexCache` are part
of the state exactly as in the source.
-/

/-- `2 ^ 64`: the number of values of the 64-bit `size_t` type. -/
def M64 : Nat := 18446744073709551616

/-- `SIZE_MAX`, the largest `size_t` value, i.e. `2 ^ 64 - 1`. -/
def SMAX : Nat := 18446744073709551615

/-- `2 ^ 63`, the first `size_t` value that maps to a negative `ptrdiff_t`. -/
def H63 : Nat := 9223372036854775808

/-- State of a `SPSCQueue<T>` object.  Field names follow the C++ data members.
`_padding` is the compile-time constant `(_cacheLineSize - 1) / sizeof(T) + 1`
(e.g. `16` for `T = int` with a 64-byte cache line); it is carried in the state
because the slot addressing `_slots[index + _padding]` depends on it. -/
structure SPSCQueue (α : Type) where
  _capacity : Nat
  _padding : Nat
  _slots : Nat → Option α
  _writeIndex : Nat
  _readIndex : Nat
  _writeIndexCache : Nat
  _readIndexCache : Nat

namespace SPSCQueue

variable {α : Type}

/-- The capacity computation of the constructor `SPSCQueue(const size_t capacity)`:
coerce the request to at least 1, add one slack slot (a `size_t` increment, hence
reduced mod `2 ^ 64`), then clamp to `SIZE_MAX - 2 * _padding` when larger. -/
def mkCapacity (capacity pad : Nat) : Nat :=
  let c1 := capacity % M64
  let c2 := if c1 < 1 then 1 else c1
  let c3 := (c2 + 1) % M64
  if SMAX - 2 * pad < c3 then SMAX - 2 * pad else c3

/-- A freshly constructed queue: `_writeIndex`, `_readIndex` and both caches are
zero-initialised, no slot holds a constructed element.  Allocation is modelled
as returning exactly the requested `_capacity + 2 * _padding` raw slots. -/
def mkQueue (α : Type) (capacity pad : Nat) : SPSCQueue α :=
  ⟨mkCapacity capacity pad, pad, fun _ => none, 0, 0, 0, 0⟩

/-- The index advance used by `emplace`/`try_emplace`/`pop`:
`next = index + 1` (a `size_t` increment), then `if (next == _capacity) next = 0`. -/
def wrapInc (cap i : Nat) : Nat :=
  let n := (i + 1) % M64
  if n = cap then 0 else n

/-- The common tail of `emplace` and `try_emplace` once space is known:
`new (&_slots[writeIndex + _padding]) T(...)` followed by the release store
`_writeIndex = nextWriteIndex`. -/
def write (q : SPSCQueue α) (v : α) : SPSCQueue α :=
  { q with
    _slots := fun i => if i = q._writeIndex + q._padding then some v else q._slots i
    _writeIndex := wrapInc q._capacity q._writeIndex }

/-- `emplace` (the unconditional, spin-waiting insert).  In the sequential
semantics the spin loop `while (next == _readIndexCache) refresh;` either exits
after at most one refresh of `_readIndexCache` from `_readIndex`, or - when the
queue is truly full, so refreshing changes nothing - spins forever, which we
model as `none`. -/
def emplace (q : SPSCQueue α) (v : α) : Option (SPSCQueue α) :=
  let nextWriteIndex := wrapInc q._capacity q._writeIndex
  if nextWriteIndex = q._readIndexCache then
    if nextWriteIndex = q._readIndex then none
    else some (write { q with _readIndexCache := q._readIndex } v)
  else some (write q v)

/-- `try_emplace`: one check against the cached read index, at most one refresh
of the cache from `_readIndex`, then either `false` (still full) or the write. -/
def try_emplace (q : SPSCQueue α) (v : α) : Bool × SPSCQueue α :=
  let nextWriteIndex := wrapInc q._capacity q._writeIndex
  if nextWriteIndex = q._readIndexCache then
    let q' := { q with _readIndexCache := q._readIndex }
    if nextWriteIndex = q'._readIndexCache then (false, q')
    else (true, write q' v)
  else (true, write q v)

/-- `push` delegates to `emplace`. -/
def push (q : SPSCQueue α) (v : α) : Option (SPSCQueue α) := emplace q v

/-- `try_push` delegates to `try_emplace`. -/
def try_push (q : SPSCQueue α) (v : α) : Bool × SPSCQueue α := try_emplace q v

/-- `front`: compare `_readIndex` against the cached write index; on equality
refresh the cache from `_writeIndex` and recheck; return `nullptr` (modelled as
`none`) when still equal, otherwise the address `&_slots[readIndex + _padding]`
(modelled as `some` of the physical slot index). -/
def front (q : SPSCQueue α) : Option Nat × SPSCQueue α :=
  let readIndex := q._readIndex
  if readIndex = q._writeIndexCache then
    let q' := { q with _writeIndexCache := q._writeIndex }
    if q'._writeIndexCache = readIndex then (none, q')
    else (some (readIndex + q._padding), q')
  else (some (readIndex + q._padding), q)

/-- `pop`: destroy `_slots[readIndex + _padding]` (the slot returns to raw
memory, i.e. `none`), then publish the advanced `_readIndex`.  The debug
assertion documents the precondition that a prior `front()` returned non-null;
the step relation below enforces it. -/
def pop (q : SPSCQueue α) : SPSCQueue α :=
  { q with
    _slots := fun i => if i = q._readIndex + q._padding then none else q._slots i
    _readIndex := wrapInc q._capacity q._readIndex }

/-- `size_t` subtraction `a - b` (wrapping mod `2 ^ 64`). -/
def subU64 (a b : Nat) : Nat := (a % M64 + (M64 - b % M64)) % M64

/-- Conversion of a `size_t` value to `ptrdiff_t` (two's-complement reinterpretation). -/
def toI64 (n : Nat) : Int :=
  if n % M64 < H63 then ((n % M64 : Nat) : Int) else ((n % M64 : Nat) : Int) - (M64 : Int)

/-- The signed difference computed by `size()`:
`ptrdiff_t diff = _writeIndex - _readIndex; if (diff < 0) diff += _capacity;`. -/
def sizeDiff (q : SPSCQueue α) : Int :=
  let d := toI64 (subU64 q._writeIndex q._readIndex)
  if d < 0 then d + q._capacity else d

/-- `size()`: the corrected difference cast back to `size_t`. -/
def size (q : SPSCQueue α) : Nat := (sizeDiff q % (M64 : Int)).toNat

/-- `empty()`: equality of the two cursors. -/
def empty (q : SPSCQueue α) : Bool := q._writeIndex == q._readIndex

/-- `capacity()`: `_capacity - 1` as a `size_t` subtraction. -/
def capacity (q : SPSCQueue α) : Nat := (q._capacity % M64 + (M64 - 1)) % M64

/-! ### Specification-side abstractions -/

/-- Forward distance from `a` to `b` on a ring of `cap` slots (for `a, b < cap`). -/
def rdist (cap a b : Nat) : Nat := if a ≤ b then b - a else b + cap - a

/-- The number of elements currently logically in the queue (oldest at
`_readIndex`, slots up to but excluding `_writeIndex`). -/
def absLen (q : SPSCQueue α) : Nat := rdist q._capacity q._readIndex q._writeIndex

/-- Physical slot index of the `k`-th oldest logical element. -/
def posIdx (q : SPSCQueue α) (k : Nat) : Nat :=
  (q._readIndex + k) % q._capacity + q._padding

/-- The abstract queue contents, oldest first, as stored in the slots. -/
def absList (q : SPSCQueue α) : List (Option α) :=
  (List.range (absLen q)).map (fun k => q._slots (posIdx q k))

/-- The physical slot indices of the live elements, oldest first. -/
def posList (q : SPSCQueue α) : List Nat :=
  (List.range (absLen q)).map (posIdx q)

/-- Constraints on the construction parameters under which the constructor
produces a well-formed queue: the request is a `size_t` value whose slack
increment does not wrap, the padding constant is at least one slot and small
enough that the clamp bound `SIZE_MAX - 2 * pad` leaves room for the ring. -/
def ValidParams (capacity pad : Nat) : Prop :=
  capacity ≤ M64 - 2 ∧ 1 ≤ pad ∧ 2 * pad ≤ M64 - 3

/-- The state invariant of the sequential (interleaved) semantics.
`prodSlack` says the producer's cached read index lags the true read index by
no more than the free space allows (so a stale cache can never let the producer
overwrite a live slot); `consSlack` says the consumer's cached write index lags
the true write index by no more than the current length (so a stale cache can
never make `front` expose an unconstructed slot); `slotsInv` says exactly the
logically occupied slots hold constructed elements. -/
structure Inv (q : SPSCQueue α) : Prop where
  cap2 : 2 ≤ q._capacity
  capB : q._capacity + 2 * q._padding ≤ SMAX
  pad1 : 1 ≤ q._padding
  rlt : q._readIndex < q._capacity
  wlt : q._writeIndex < q._capacity
  rclt : q._readIndexCache < q._capacity
  wclt : q._writeIndexCache < q._capacity
  prodSlack : rdist q._capacity q._readIndexCache q._readIndex + absLen q ≤ q._capacity - 1
  consSlack : rdist q._capacity q._writeIndexCache q._writeIndex ≤ absLen q
  slotsInv : ∀ i, (q._slots i).isSome ↔ ∃ k, k < absLen q ∧ i = posIdx q k

/-- One atomic method call of the sequential semantics.  `popStep` bundles
`front` and `pop`, reflecting the documented precondition that `pop()` is only
called after `front()` returned a valid pointer. -/
inductive Step : SPSCQueue α → SPSCQueue α → Prop
  | emplaceStep (q q' : SPSCQueue α) (v : α) (h : emplace q v = some q') : Step q q'
  | tryStep (q : SPSCQueue α) (v : α) : Step q (try_emplace q v).2
  | frontStep (q : SPSCQueue α) : Step q (front q).2
  | popStep (q : SPSCQueue α) (h : ((front q).1).isSome = true) : Step q (pop (front q).2)

/-- States reachable from some validly constructed queue by method calls. -/
inductive Reachable : SPSCQueue α → Prop
  | start (capacity pad : Nat) (h : ValidParams capacity pad) :
      Reachable (mkQueue α capacity pad)
  | more (q q' : SPSCQueue α) (h : Reachable q) (hs : Step q q') : Reachable q'

/-- Dereference a pointer returned by `front`: `none` is the null pointer,
`some i` reads the slot it points to. -/
def deref (q : SPSCQueue α) (o : Option Nat) : Option α :=
  match o with
  | none => none
  | some i => q._slots i

/-- Run an interleaving of producer and consumer calls: `true` is an `emplace`
of the next pending value, `false` is a `front` followed by a `pop`, recording
the value observed through the returned pointer.  The `none` branch of
`emplace` models a producer blocked forever on a full queue; it is unreachable
for admissible schedules. -/
def runSched (q : SPSCQueue α) (pending : List α) (sched : List Bool) :
    SPSCQueue α × List (Option α) :=
  match sched, pending with
  | [], _ => (q, [])
  | true :: rest, v :: vs =>
    match emplace q v with
    | some q' => runSched q' vs rest
    | none => (q, [])
  | true :: _, [] => (q, [])
  | false :: rest, vs =>
    let fr := front q
    let q2 := pop fr.2
    let res := runSched q2 vs rest
    (res.1, deref fr.2 fr.1 :: res.2)

/-- A schedule is admissible for logical capacity `capC` starting from `l`
queued elements when no remove overtakes its insert and no insert is issued on
a full queue (the completion order of blocking calls always satisfies this). -/
def admissible (capC : Nat) : Nat → List Bool → Bool
  | _, [] => true
  | l, true :: rest => decide (l + 1 ≤ capC) && admissible capC (l + 1) rest
  | l, false :: rest => decide (1 ≤ l) && admissible capC (l - 1) rest

/-- Issue one `try_emplace` per value, collecting the returned Booleans. -/
def tryPushList (q : SPSCQueue α) : List α → SPSCQueue α × List Bool
  | [] => (q, [])
  | v :: vs =>
    let r := try_emplace q v
    let res := tryPushList r.2 vs
    (res.1, r.1 :: res.2)

/-- The destructor loop `while (front()) pop();`, with an explicit iteration
bound (the loop exits within `_capacity` iterations, as proved below).  Returns
the final state and the physical indices of the slots destroyed, in order. -/
def drainFuel : Nat → SPSCQueue α → SPSCQueue α × List Nat
  | 0, q => (q, [])
  | fuel + 1, q =>
    let fr := front q
    match fr.1 with
    | none => (fr.2, [])
    | some i =>
      let res := drainFuel fuel (pop fr.2)
      (res.1, i :: res.2)

end SPSCQueue

namespace SPSCQueue

/-! ### Arithmetic helpers -/

lemma M64_eq : M64 = 18446744073709551616 := rfl

lemma wrapInc_eq (cap i : Nat) (h : i + 1 < M64) :
    wrapInc cap i = if i + 1 = cap then 0 else i + 1 := by
  unfold wrapInc
  rw [Nat.mod_eq_of_lt h]

lemma wrapInc_lt (cap i : Nat) (h2 : 2 ≤ cap) (hi : i < cap) (hc : cap < M64) :
    wrapInc cap i < cap := by
  rw [wrapInc_eq cap i (by omega)]
  split <;> omega

lemma rdist_lt (cap a b : Nat) (ha : a < cap) (hb : b < cap) : rdist cap a b < cap := by
  unfold rdist; split <;> omega

lemma rdist_self (cap a : Nat) : rdist cap a a = 0 := by
  unfold rdist; simp

lemma rdist_eq_zero_iff (cap a b : Nat) (ha : a < cap) (hb : b < cap) :
    rdist cap a b = 0 ↔ a = b := by
  unfold rdist; split <;> omega

lemma rdist_right_cancel (cap a b c : Nat) (ha : a < cap) (hb : b < cap) (hc : c < cap)
    (h : rdist cap a c = rdist cap b c) : a = b := by
  unfold rdist at h; split at h <;> split at h <;> omega

lemma rdist_succ_right (cap a b : Nat) (h2 : 2 ≤ cap) (ha : a < cap) (hb : b < cap)
    (hc : cap < M64) (h : rdist cap a b ≤ cap - 2) :
    rdist cap a (wrapInc cap b) = rdist cap a b + 1 := by
  rw [wrapInc_eq cap b (by omega)]
  unfold rdist at h ⊢
  split_ifs at h ⊢ <;> omega

lemma rdist_succ_left (cap a b : Nat) (h2 : 2 ≤ cap) (ha : a < cap) (hb : b < cap)
    (hc : cap < M64) (h : 1 ≤ rdist cap a b) :
    rdist cap (wrapInc cap a) b = rdist cap a b - 1 := by
  rw [wrapInc_eq cap a (by omega)]
  unfold rdist at h ⊢
  split_ifs at h ⊢ <;> omega

lemma rdist_add_cases (cap a b c : Nat) (ha : a < cap) (hb : b < cap) (hc : c < cap) :
    rdist cap a b + rdist cap b c = rdist cap a c ∨
    rdist cap a b + rdist cap b c = rdist cap a c + cap := by
  unfold rdist; split <;> split <;> split <;> omega

lemma rdist_full_iff (cap a b : Nat) (h2 : 2 ≤ cap) (ha : a < cap) (hb : b < cap)
    (hc : cap < M64) :
    rdist cap a b = cap - 1 ↔ a = wrapInc cap b := by
  rw [wrapInc_eq cap b (by omega)]
  unfold rdist
  split <;> split <;> omega

lemma add_mod_cases (r k cap : Nat) (hr : r < cap) (hk : k < cap) :
    (r + k) % cap = if r + k < cap then r + k else r + k - cap := by
  split
  · exact Nat.mod_eq_of_lt (by omega)
  · rw [Nat.mod_eq_sub_mod (by omega)]
    exact Nat.mod_eq_of_lt (by omega)

lemma add_mod_inj (r k1 k2 cap : Nat) (hr : r < cap) (h1 : k1 < cap) (h2 : k2 < cap)
    (h : (r + k1) % cap = (r + k2) % cap) : k1 = k2 := by
  rw [add_mod_cases r k1 cap hr h1, add_mod_cases r k2 cap hr h2] at h
  split at h <;> split at h <;> omega

lemma add_rdist_mod (cap a b : Nat) (ha : a < cap) (hb : b < cap) :
    (a + rdist cap a b) % cap = b := by
  have h := add_mod_cases a (rdist cap a b) cap ha (rdist_lt cap a b ha hb)
  rw [h]
  unfold rdist
  split <;> split <;> omega

lemma wrapInc_add_mod (cap r k : Nat) (h2 : 2 ≤ cap) (hr : r < cap) (hc : cap < M64) :
    (wrapInc cap r + k) % cap = (r + (k + 1)) % cap := by
  rw [wrapInc_eq cap r (by omega)]
  split
  · have : r + (k + 1) = cap + k := by omega
    rw [this, Nat.add_mod_left]
    simp
  · have : r + (k + 1) = r + 1 + k := by omega
    rw [this]

/-! ### Constructor facts -/

lemma mkCapacity_def (C pad : Nat) :
    mkCapacity C pad =
      if SMAX - 2 * pad < ((if C % M64 < 1 then 1 else C % M64) + 1) % M64
      then SMAX - 2 * pad
      else ((if C % M64 < 1 then 1 else C % M64) + 1) % M64 := rfl

lemma mkCapacity_eq (C pad : Nat) (hC : C < M64) (h : (if C < 1 then 1 else C) + 1 ≤ SMAX - 2 * pad) :
    mkCapacity C pad = (if C < 1 then 1 else C) + 1 := by
  have hM : M64 = 18446744073709551616 := rfl
  have hS : SMAX = 18446744073709551615 := rfl
  have hlt : (if C < 1 then 1 else C) + 1 < M64 := by
    have : SMAX - 2 * pad < M64 := by omega
    omega
  rw [mkCapacity_def, Nat.mod_eq_of_lt hC, Nat.mod_eq_of_lt hlt]
  rw [if_neg (by omega)]

lemma mkCapacity_bounds (C pad : Nat) (h : ValidParams C pad) :
    2 ≤ mkCapacity C pad ∧ mkCapacity C pad + 2 * pad ≤ SMAX := by
  obtain ⟨h1, h2, h3⟩ := h
  have hM : M64 = 18446744073709551616 := rfl
  have hS : SMAX = 18446744073709551615 := rfl
  have hC : C % M64 = C := Nat.mod_eq_of_lt (by omega)
  have hc3 : ((if C < 1 then 1 else C) + 1) % M64 = (if C < 1 then 1 else C) + 1 := by
    apply Nat.mod_eq_of_lt
    split <;> omega
  rw [mkCapacity_def, hC, hc3]
  rcases Nat.lt_or_ge C 1 with hc | hc
  · have hin : (if C < 1 then 1 else C) = 1 := if_pos hc
    rw [hin]
    split_ifs <;> omega
  · have hin : (if C < 1 then 1 else C) = C := if_neg (by omega)
    rw [hin]
    split_ifs <;> omega

lemma absLen_mkQueue (α : Type) (C pad : Nat) : absLen (mkQueue α C pad) = 0 := by
  have hr : (mkQueue α C pad)._readIndex = 0 := rfl
  have hw : (mkQueue α C pad)._writeIndex = 0 := rfl
  unfold absLen
  rw [hr, hw, rdist_self]

lemma mkQueue_capacity (α : Type) (C pad : Nat) :
    (mkQueue α C pad)._capacity = mkCapacity C pad := rfl

lemma mkQueue_fields (α : Type) (C pad : Nat) :
    (mkQueue α C pad)._padding = pad ∧ (mkQueue α C pad)._readIndex = 0 ∧
    (mkQueue α C pad)._writeIndex = 0 ∧ (mkQueue α C pad)._readIndexCache = 0 ∧
    (mkQueue α C pad)._writeIndexCache = 0 := ⟨rfl, rfl, rfl, rfl, rfl⟩

lemma mkQueue_inv (α : Type) (C pad : Nat) (h : ValidParams C pad) :
    Inv (mkQueue α C pad) := by
  obtain ⟨hb1, hb2⟩ := mkCapacity_bounds C pad h
  obtain ⟨hp, hr, hw, hrc, hwc⟩ := mkQueue_fields α C pad
  refine ⟨?_, ?_, ?_, ?_, ?_, ?_, ?_, ?_, ?_, ?_⟩
  · rw [mkQueue_capacity]; exact hb1
  · rw [mkQueue_capacity, hp]; exact hb2
  · rw [hp]; exact h.2.1
  · rw [mkQueue_capacity, hr]; omega
  · rw [mkQueue_capacity, hw]; omega
  · rw [mkQueue_capacity, hrc]; omega
  · rw [mkQueue_capacity, hwc]; omega
  · rw [absLen_mkQueue, hrc, hr, rdist_self]
    rw [mkQueue_capacity]; omega
  · rw [absLen_mkQueue, hwc, hw, rdist_self]
  · intro i
    rw [absLen_mkQueue]
    simp [mkQueue]

end SPSCQueue

namespace SPSCQueue

/-! ### The write step (shared tail of `emplace` and `try_emplace`) -/

variable {α : Type}

lemma capacity_lt_M64 (q : SPSCQueue α) (hq : Inv q) : q._capacity < M64 := by
  have h1 := hq.capB
  have h2 := hq.pad1
  have e : SMAX + 1 = M64 := rfl
  omega

lemma posIdx_inj (q : SPSCQueue α) (k1 k2 : Nat) (hr : q._readIndex < q._capacity)
    (h1 : k1 < q._capacity) (h2 : k2 < q._capacity) (h : posIdx q k1 = posIdx q k2) :
    k1 = k2 := by
  unfold posIdx at h
  exact add_mod_inj _ _ _ _ hr h1 h2 (Nat.add_right_cancel h)

lemma posIdx_absLen (q : SPSCQueue α) (hr : q._readIndex < q._capacity)
    (hw : q._writeIndex < q._capacity) :
    posIdx q (absLen q) = q._writeIndex + q._padding := by
  unfold posIdx absLen
  rw [add_rdist_mod _ _ _ hr hw]

lemma write_fields (q : SPSCQueue α) (v : α) :
    (write q v)._capacity = q._capacity ∧ (write q v)._padding = q._padding ∧
    (write q v)._readIndex = q._readIndex ∧
    (write q v)._writeIndex = wrapInc q._capacity q._writeIndex ∧
    (write q v)._readIndexCache = q._readIndexCache ∧
    (write q v)._writeIndexCache = q._writeIndexCache ∧
    (write q v)._slots =
      fun i => if i = q._writeIndex + q._padding then some v else q._slots i :=
  ⟨rfl, rfl, rfl, rfl, rfl, rfl, rfl⟩

lemma absLen_write (q : SPSCQueue α) (v : α) (h2 : 2 ≤ q._capacity)
    (hr : q._readIndex < q._capacity) (hw : q._writeIndex < q._capacity)
    (hM : q._capacity < M64) (hlen : absLen q ≤ q._capacity - 2) :
    absLen (write q v) = absLen q + 1 := by
  unfold absLen
  have e1 : (write q v)._readIndex = q._readIndex := rfl
  have e2 : (write q v)._writeIndex = wrapInc q._capacity q._writeIndex := rfl
  have e3 : (write q v)._capacity = q._capacity := rfl
  rw [e1, e2, e3]
  exact rdist_succ_right _ _ _ h2 hr hw hM hlen

lemma posIdx_write (q : SPSCQueue α) (v : α) (k : Nat) :
    posIdx (write q v) k = posIdx q k := rfl

lemma write_slots_eq (q : SPSCQueue α) (v : α) (i : Nat) :
    (write q v)._slots i = if i = q._writeIndex + q._padding then some v else q._slots i := rfl

lemma write_slotsInv (q : SPSCQueue α) (v : α) (hq : Inv q)
    (hlen : absLen q ≤ q._capacity - 2) :
    ∀ i, ((write q v)._slots i).isSome ↔ ∃ k, k < absLen q + 1 ∧ i = posIdx q k := by
  intro i
  have hcap2 := hq.cap2
  have hwpos : posIdx q (absLen q) = q._writeIndex + q._padding :=
    posIdx_absLen q hq.rlt hq.wlt
  rw [write_slots_eq]
  by_cases hi : i = q._writeIndex + q._padding
  · rw [if_pos hi]
    constructor
    · intro _
      exact ⟨absLen q, by omega, by rw [hi, hwpos]⟩
    · intro _
      rfl
  · rw [if_neg hi, hq.slotsInv i]
    constructor
    · rintro ⟨k, hk, hik⟩
      exact ⟨k, by omega, hik⟩
    · rintro ⟨k, hk, hik⟩
      rcases Nat.lt_or_ge k (absLen q) with hk2 | hk2
      · exact ⟨k, hk2, hik⟩
      · have hke : k = absLen q := by omega
        subst hke
        exact absurd (hik.trans hwpos) hi

lemma absList_write (q : SPSCQueue α) (v : α) (hq : Inv q)
    (hlen : absLen q ≤ q._capacity - 2) :
    absList (write q v) = absList q ++ [some v] := by
  have hwpos : posIdx q (absLen q) = q._writeIndex + q._padding :=
    posIdx_absLen q hq.rlt hq.wlt
  unfold absList
  rw [absLen_write q v hq.cap2 hq.rlt hq.wlt (capacity_lt_M64 q hq) hlen]
  rw [List.range_succ, List.map_append]
  congr 1
  · apply List.map_congr_left
    intro k hk
    rw [List.mem_range] at hk
    rw [posIdx_write, write_slots_eq]
    rw [if_neg]
    intro hcontra
    have hke : k = absLen q := by
      apply posIdx_inj q k (absLen q) hq.rlt (by omega) (by omega)
      rw [hcontra, hwpos]
    omega
  · have e : posIdx (write q v) (absLen q) = posIdx q (absLen q) := rfl
    simp only [List.map_cons, List.map_nil]
    rw [e, write_slots_eq, hwpos, if_pos rfl]

lemma write_inv (q : SPSCQueue α) (v : α) (hq : Inv q)
    (hps : rdist q._capacity q._readIndexCache q._readIndex + absLen q ≤ q._capacity - 2) :
    Inv (write q v) := by
  obtain ⟨ec, ep, er, ew, erc, ewc, es⟩ := write_fields q v
  have hM := capacity_lt_M64 q hq
  have hlen : absLen q ≤ q._capacity - 2 := by
    have := hq.cap2
    omega
  have hal : absLen (write q v) = absLen q + 1 :=
    absLen_write q v hq.cap2 hq.rlt hq.wlt hM hlen
  refine ⟨?_, ?_, ?_, ?_, ?_, ?_, ?_, ?_, ?_, ?_⟩
  · rw [ec]; exact hq.cap2
  · rw [ec, ep]; exact hq.capB
  · rw [ep]; exact hq.pad1
  · rw [er, ec]; exact hq.rlt
  · rw [ew, ec]
    exact wrapInc_lt _ _ hq.cap2 hq.wlt hM
  · rw [erc, ec]; exact hq.rclt
  · rw [ewc, ec]; exact hq.wclt
  · rw [hal, ec, erc, er]
    have hc2 := hq.cap2
    omega
  · rw [hal, ec, ewc, ew]
    have hcs : rdist q._capacity q._writeIndexCache q._writeIndex ≤ q._capacity - 2 := by
      have := hq.consSlack
      omega
    rw [rdist_succ_right _ _ _ hq.cap2 hq.wclt hq.wlt hM hcs]
    have := hq.consSlack
    omega
  · intro i
    rw [hal]
    have hp : posIdx (write q v) i = posIdx q i := rfl
    have hiff := write_slotsInv q v hq hlen i
    rw [hiff]
    constructor
    · rintro ⟨k, hk, hik⟩
      exact ⟨k, hk, hik⟩
    · rintro ⟨k, hk, hik⟩
      exact ⟨k, hk, hik⟩

end SPSCQueue

namespace SPSCQueue

/-! ### The pop step -/

variable {α : Type}

lemma pop_fields (q : SPSCQueue α) :
    (pop q)._capacity = q._capacity ∧ (pop q)._padding = q._padding ∧
    (pop q)._readIndex = wrapInc q._capacity q._readIndex ∧
    (pop q)._writeIndex = q._writeIndex ∧
    (pop q)._readIndexCache = q._readIndexCache ∧
    (pop q)._writeIndexCache = q._writeIndexCache :=
  ⟨rfl, rfl, rfl, rfl, rfl, rfl⟩

lemma pop_slots_eq (q : SPSCQueue α) (i : Nat) :
    (pop q)._slots i = if i = q._readIndex + q._padding then none else q._slots i := rfl

lemma absLen_pop (q : SPSCQueue α) (h2 : 2 ≤ q._capacity)
    (hr : q._readIndex < q._capacity) (hw : q._writeIndex < q._capacity)
    (hM : q._capacity < M64) (hlen : 1 ≤ absLen q) :
    absLen (pop q) = absLen q - 1 := by
  unfold absLen
  have e1 : (pop q)._readIndex = wrapInc q._capacity q._readIndex := rfl
  have e2 : (pop q)._writeIndex = q._writeIndex := rfl
  have e3 : (pop q)._capacity = q._capacity := rfl
  rw [e1, e2, e3]
  exact rdist_succ_left _ _ _ h2 hr hw hM hlen

lemma posIdx_zero (q : SPSCQueue α) (hr : q._readIndex < q._capacity) :
    posIdx q 0 = q._readIndex + q._padding := by
  unfold posIdx
  rw [Nat.add_zero, Nat.mod_eq_of_lt hr]

lemma posIdx_pop (q : SPSCQueue α) (k : Nat) (h2 : 2 ≤ q._capacity)
    (hr : q._readIndex < q._capacity) (hM : q._capacity < M64) :
    posIdx (pop q) k = posIdx q (k + 1) := by
  unfold posIdx
  have e1 : (pop q)._readIndex = wrapInc q._capacity q._readIndex := rfl
  have e2 : (pop q)._capacity = q._capacity := rfl
  have e3 : (pop q)._padding = q._padding := rfl
  rw [e1, e2, e3, wrapInc_add_mod _ _ _ h2 hr hM]

lemma pop_slotsInv (q : SPSCQueue α) (hq : Inv q) (hlen : 1 ≤ absLen q) :
    ∀ i, ((pop q)._slots i).isSome ↔ ∃ k, k < absLen q - 1 ∧ i = posIdx (pop q) k := by
  intro i
  have hM := capacity_lt_M64 q hq
  have hcap2 := hq.cap2
  have hcapbound : absLen q ≤ q._capacity - 1 := by
    have := hq.prodSlack
    omega
  have h0 : posIdx q 0 = q._readIndex + q._padding := posIdx_zero q hq.rlt
  rw [pop_slots_eq]
  by_cases hi : i = q._readIndex + q._padding
  · rw [if_pos hi]
    constructor
    · intro hs
      exact absurd hs (by simp)
    · rintro ⟨k, hk, hik⟩
      rw [posIdx_pop q k hq.cap2 hq.rlt hM] at hik
      have heq : posIdx q (k + 1) = posIdx q 0 := by
        rw [← hik, hi, h0]
      have hke : k + 1 = 0 :=
        posIdx_inj q (k + 1) 0 hq.rlt (by omega) (by omega) heq
      omega
  · rw [if_neg hi, hq.slotsInv i]
    constructor
    · rintro ⟨k, hk, hik⟩
      rcases k with _ | k'
      · exact absurd (hik.trans h0) hi
      · refine ⟨k', by omega, ?_⟩
        rw [posIdx_pop q k' hq.cap2 hq.rlt hM]
        exact hik
    · rintro ⟨k, hk, hik⟩
      rw [posIdx_pop q k hq.cap2 hq.rlt hM] at hik
      exact ⟨k + 1, by omega, hik⟩

lemma absList_pop (q : SPSCQueue α) (hq : Inv q) (hlen : 1 ≤ absLen q) :
    absList (pop q) = (absList q).tail := by
  have hM := capacity_lt_M64 q hq
  have hcap2 := hq.cap2
  have hcapbound : absLen q ≤ q._capacity - 1 := by
    have := hq.prodSlack
    omega
  obtain ⟨n, hn⟩ : ∃ n, absLen q = n + 1 := ⟨absLen q - 1, by omega⟩
  unfold absList
  rw [absLen_pop q hq.cap2 hq.rlt hq.wlt hM hlen, hn]
  have hrange : List.range (n + 1) = 0 :: List.map Nat.succ (List.range n) :=
    List.range_succ_eq_map n
  rw [hrange]
  rw [List.map_cons, List.tail_cons, List.map_map]
  simp only [Nat.add_sub_cancel]
  apply List.map_congr_left
  intro k hk
  rw [List.mem_range] at hk
  have hp : posIdx (pop q) k = posIdx q (k + 1) := posIdx_pop q k hq.cap2 hq.rlt hM
  rw [hp, pop_slots_eq]
  rw [if_neg]
  · have e : Nat.succ k = k + 1 := rfl
    simp only [Function.comp_apply]
  · intro hcontra
    have h0 : posIdx q 0 = q._readIndex + q._padding := posIdx_zero q hq.rlt
    have : k + 1 = 0 := by
      apply posIdx_inj q (k + 1) 0 hq.rlt (by omega) (by omega)
      rw [hcontra, h0]
    omega

lemma pop_inv (q : SPSCQueue α) (hq : Inv q) (hlen : 1 ≤ absLen q)
    (hcs : rdist q._capacity q._writeIndexCache q._writeIndex + 1 ≤ absLen q) :
    Inv (pop q) := by
  obtain ⟨ec, ep, er, ew, erc, ewc⟩ := pop_fields q
  have hM := capacity_lt_M64 q hq
  have hcap2 := hq.cap2
  have hps := hq.prodSlack
  have hal : absLen (pop q) = absLen q - 1 :=
    absLen_pop q hq.cap2 hq.rlt hq.wlt hM hlen
  refine ⟨?_, ?_, ?_, ?_, ?_, ?_, ?_, ?_, ?_, ?_⟩
  · rw [ec]; exact hq.cap2
  · rw [ec, ep]; exact hq.capB
  · rw [ep]; exact hq.pad1
  · rw [er, ec]
    exact wrapInc_lt _ _ hq.cap2 hq.rlt hM
  · rw [ew, ec]; exact hq.wlt
  · rw [erc, ec]; exact hq.rclt
  · rw [ewc, ec]; exact hq.wclt
  · rw [hal, ec, erc, er]
    have hrc : rdist q._capacity q._readIndexCache q._readIndex ≤ q._capacity - 2 := by
      omega
    rw [rdist_succ_right _ _ _ hq.cap2 hq.rclt hq.rlt hM hrc]
    omega
  · rw [hal, ec, ewc, ew]
    omega
  · intro i
    rw [hal]
    exact pop_slotsInv q hq hlen i

end SPSCQueue

namespace SPSCQueue

/-! ### The front step -/

variable {α : Type}

lemma front_def (q : SPSCQueue α) :
    front q =
      if q._readIndex = q._writeIndexCache then
        if q._writeIndex = q._readIndex
        then (none, { q with _writeIndexCache := q._writeIndex })
        else (some (q._readIndex + q._padding), { q with _writeIndexCache := q._writeIndex })
      else (some (q._readIndex + q._padding), q) := rfl

lemma refresh_inv (q : SPSCQueue α) (hq : Inv q) :
    Inv ({ q with _writeIndexCache := q._writeIndex } : SPSCQueue α) := by
  refine ⟨hq.cap2, hq.capB, hq.pad1, hq.rlt, hq.wlt, hq.rclt, hq.wlt, hq.prodSlack, ?_, hq.slotsInv⟩
  show rdist q._capacity q._writeIndex q._writeIndex ≤ absLen q
  rw [rdist_self]
  exact Nat.zero_le _

lemma front_state (q : SPSCQueue α) (hq : Inv q) :
    Inv (front q).2 ∧
    (front q).2._slots = q._slots ∧
    (front q).2._capacity = q._capacity ∧
    (front q).2._padding = q._padding ∧
    (front q).2._readIndex = q._readIndex ∧
    (front q).2._writeIndex = q._writeIndex ∧
    (front q).2._readIndexCache = q._readIndexCache ∧
    absLen (front q).2 = absLen q ∧
    absList (front q).2 = absList q := by
  rw [front_def]
  by_cases h1 : q._readIndex = q._writeIndexCache
  · rw [if_pos h1]
    by_cases h2 : q._writeIndex = q._readIndex
    · rw [if_pos h2]
      exact ⟨refresh_inv q hq, rfl, rfl, rfl, rfl, rfl, rfl, rfl, rfl⟩
    · rw [if_neg h2]
      exact ⟨refresh_inv q hq, rfl, rfl, rfl, rfl, rfl, rfl, rfl, rfl⟩
  · rw [if_neg h1]
    exact ⟨hq, rfl, rfl, rfl, rfl, rfl, rfl, rfl, rfl⟩

lemma front_none_iff (q : SPSCQueue α) (hq : Inv q) :
    (front q).1 = none ↔ absLen q = 0 := by
  rw [front_def]
  by_cases h1 : q._readIndex = q._writeIndexCache
  · rw [if_pos h1]
    by_cases h2 : q._writeIndex = q._readIndex
    · rw [if_pos h2]
      constructor
      · intro _
        unfold absLen
        rw [h2, rdist_self]
      · intro _
        rfl
    · rw [if_neg h2]
      constructor
      · intro hc
        exact absurd hc (by simp)
      · intro hlen
        unfold absLen at hlen
        rw [rdist_eq_zero_iff _ _ _ hq.rlt hq.wlt] at hlen
        exact absurd hlen.symm h2
  · rw [if_neg h1]
    constructor
    · intro hc
      exact absurd hc (by simp)
    · intro hlen
      unfold absLen at hlen
      rw [rdist_eq_zero_iff _ _ _ hq.rlt hq.wlt] at hlen
      have hwc : rdist q._capacity q._writeIndexCache q._writeIndex = 0 := by
        have := hq.consSlack
        unfold absLen at this
        rw [hlen, rdist_self] at this
        omega
      rw [rdist_eq_zero_iff _ _ _ hq.wclt hq.wlt] at hwc
      exact absurd (hlen ▸ hwc.symm : q._readIndex = q._writeIndexCache) h1

lemma front_some_val (q : SPSCQueue α) (ho : ((front q).1).isSome) :
    (front q).1 = some (q._readIndex + q._padding) := by
  rw [front_def] at ho ⊢
  by_cases h1 : q._readIndex = q._writeIndexCache
  · rw [if_pos h1] at ho ⊢
    by_cases h2 : q._writeIndex = q._readIndex
    · rw [if_pos h2] at ho
      exact absurd ho (by simp)
    · rw [if_neg h2]
  · rw [if_neg h1]

lemma front_some_len (q : SPSCQueue α) (hq : Inv q) (ho : ((front q).1).isSome) :
    1 ≤ absLen q ∧
    rdist q._capacity (front q).2._writeIndexCache q._writeIndex + 1 ≤ absLen q := by
  have hlen1 : 1 ≤ absLen q := by
    rcases Nat.eq_zero_or_pos (absLen q) with h0 | h0
    · rw [← front_none_iff q hq] at h0
      rw [h0] at ho
      exact absurd ho (by simp)
    · omega
  refine ⟨hlen1, ?_⟩
  rw [front_def] at ho ⊢
  by_cases h1 : q._readIndex = q._writeIndexCache
  · rw [if_pos h1] at ho ⊢
    by_cases h2 : q._writeIndex = q._readIndex
    · rw [if_pos h2] at ho
      exact absurd ho (by simp)
    · rw [if_neg h2]
      show rdist q._capacity q._writeIndex q._writeIndex + 1 ≤ absLen q
      rw [rdist_self]
      omega
  · rw [if_neg h1]
    show rdist q._capacity q._writeIndexCache q._writeIndex + 1 ≤ absLen q
    have hcs := hq.consSlack
    have hne : rdist q._capacity q._writeIndexCache q._writeIndex ≠ absLen q := by
      intro he
      unfold absLen at he
      exact absurd (rdist_right_cancel _ _ _ _ hq.wclt hq.rlt hq.wlt he) (Ne.symm h1)
    omega

lemma front_none_refreshed (q : SPSCQueue α) (hn : (front q).1 = none) :
    (front q).2._writeIndexCache = q._writeIndex := by
  rw [front_def] at hn ⊢
  by_cases h1 : q._readIndex = q._writeIndexCache
  · rw [if_pos h1] at hn ⊢
    by_cases h2 : q._writeIndex = q._readIndex
    · rw [if_pos h2]
    · rw [if_neg h2] at hn
      exact absurd hn (by simp)
  · rw [if_neg h1] at hn
    exact absurd hn (by simp)

end SPSCQueue

namespace SPSCQueue

/-! ### emplace / try_emplace -/

variable {α : Type}

lemma try_emplace_def (q : SPSCQueue α) (v : α) :
    try_emplace q v =
      if wrapInc q._capacity q._writeIndex = q._readIndexCache then
        if wrapInc q._capacity q._writeIndex = q._readIndex
        then (false, { q with _readIndexCache := q._readIndex })
        else (true, write { q with _readIndexCache := q._readIndex } v)
      else (true, write q v) := rfl

lemma emplace_def (q : SPSCQueue α) (v : α) :
    emplace q v =
      if wrapInc q._capacity q._writeIndex = q._readIndexCache then
        if wrapInc q._capacity q._writeIndex = q._readIndex
        then none
        else some (write { q with _readIndexCache := q._readIndex } v)
      else some (write q v) := rfl

lemma full_iff (q : SPSCQueue α) (hq : Inv q) :
    wrapInc q._capacity q._writeIndex = q._readIndex ↔ absLen q = q._capacity - 1 := by
  have hM := capacity_lt_M64 q hq
  rw [show (absLen q = rdist q._capacity q._readIndex q._writeIndex) from rfl]
  rw [rdist_full_iff _ _ _ hq.cap2 hq.rlt hq.wlt hM]
  exact ⟨fun h => h.symm, fun h => h.symm⟩

lemma fast_slack (q : SPSCQueue α) (hq : Inv q)
    (hfast : wrapInc q._capacity q._writeIndex ≠ q._readIndexCache) :
    rdist q._capacity q._readIndexCache q._readIndex + absLen q ≤ q._capacity - 2 := by
  have hM := capacity_lt_M64 q hq
  have hps := hq.prodSlack
  have hc2 := hq.cap2
  have habs : absLen q = rdist q._capacity q._readIndex q._writeIndex := rfl
  rcases Nat.lt_or_ge (rdist q._capacity q._readIndexCache q._readIndex + absLen q)
      (q._capacity - 1) with hlt | hge
  · omega
  · exfalso
    have hfull : rdist q._capacity q._readIndexCache q._readIndex + absLen q
        = q._capacity - 1 := by omega
    have hcases := rdist_add_cases q._capacity q._readIndexCache q._readIndex q._writeIndex
      hq.rclt hq.rlt hq.wlt
    have hcw : rdist q._capacity q._readIndexCache q._writeIndex = q._capacity - 1 := by
      rcases hcases with hc | hc
      · rw [← hc]
        exact hfull
      · have := rdist_lt q._capacity q._readIndexCache q._writeIndex hq.rclt hq.wlt
        omega
    rw [rdist_full_iff _ _ _ hq.cap2 hq.rclt hq.wlt hM] at hcw
    exact hfast hcw.symm

lemma rcache_refresh_inv (q : SPSCQueue α) (hq : Inv q) :
    Inv ({ q with _readIndexCache := q._readIndex } : SPSCQueue α) := by
  refine ⟨hq.cap2, hq.capB, hq.pad1, hq.rlt, hq.wlt, hq.rlt, hq.wclt, ?_, hq.consSlack,
    hq.slotsInv⟩
  show rdist q._capacity q._readIndex q._readIndex + absLen q ≤ q._capacity - 1
  rw [rdist_self]
  have := hq.prodSlack
  omega

lemma try_emplace_false_iff (q : SPSCQueue α) (v : α) (hq : Inv q) :
    (try_emplace q v).1 = false ↔ absLen q = q._capacity - 1 := by
  rw [try_emplace_def]
  by_cases h1 : wrapInc q._capacity q._writeIndex = q._readIndexCache
  · rw [if_pos h1]
    by_cases h2 : wrapInc q._capacity q._writeIndex = q._readIndex
    · rw [if_pos h2]
      simp only [true_iff]
      exact (full_iff q hq).mp h2
    · rw [if_neg h2]
      constructor
      · intro hc
        exact absurd hc (by simp)
      · intro hful
        exact absurd ((full_iff q hq).mpr hful) h2
  · rw [if_neg h1]
    constructor
    · intro hc
      exact absurd hc (by simp)
    · intro hful
      have hr : wrapInc q._capacity q._writeIndex = q._readIndex := (full_iff q hq).mpr hful
      have hps : rdist q._capacity q._readIndexCache q._readIndex + absLen q
          ≤ q._capacity - 1 := hq.prodSlack
      have hzero : rdist q._capacity q._readIndexCache q._readIndex = 0 := by
        have hc2 := hq.cap2
        omega
      rw [rdist_eq_zero_iff _ _ _ hq.rclt hq.rlt] at hzero
      rw [← hzero] at hr
      exact absurd hr h1

lemma try_emplace_false_state (q : SPSCQueue α) (v : α)
    (h : (try_emplace q v).1 = false) :
    (try_emplace q v).2 = { q with _readIndexCache := q._readIndex } := by
  rw [try_emplace_def] at h ⊢
  by_cases h1 : wrapInc q._capacity q._writeIndex = q._readIndexCache
  · rw [if_pos h1] at h ⊢
    by_cases h2 : wrapInc q._capacity q._writeIndex = q._readIndex
    · rw [if_pos h2]
    · rw [if_neg h2] at h
      exact absurd h (by simp)
  · rw [if_neg h1] at h
    exact absurd h (by simp)

lemma try_emplace_true_state (q : SPSCQueue α) (v : α) (hq : Inv q)
    (h : (try_emplace q v).1 = true) :
    Inv (try_emplace q v).2 ∧
    absLen (try_emplace q v).2 = absLen q + 1 ∧
    absList (try_emplace q v).2 = absList q ++ [some v] ∧
    (try_emplace q v).2._readIndex = q._readIndex ∧
    (try_emplace q v).2._writeIndex = wrapInc q._capacity q._writeIndex ∧
    (try_emplace q v).2._capacity = q._capacity ∧
    (try_emplace q v).2._padding = q._padding ∧
    (try_emplace q v).2._slots (q._writeIndex + q._padding) = some v := by
  rw [try_emplace_def] at h ⊢
  by_cases h1 : wrapInc q._capacity q._writeIndex = q._readIndexCache
  · rw [if_pos h1] at h ⊢
    by_cases h2 : wrapInc q._capacity q._writeIndex = q._readIndex
    · rw [if_pos h2] at h
      exact absurd h (by simp)
    · rw [if_neg h2]
      set qc : SPSCQueue α := { q with _readIndexCache := q._readIndex } with hqc
      have hqcInv : Inv qc := rcache_refresh_inv q hq
      have hlenq : absLen qc = absLen q := rfl
      have hlistq : absList qc = absList q := rfl
      have hslack : rdist qc._capacity qc._readIndexCache qc._readIndex + absLen qc
          ≤ qc._capacity - 2 := by
        show rdist q._capacity q._readIndex q._readIndex + absLen qc ≤ q._capacity - 2
        rw [rdist_self, hlenq]
        have hful : absLen q ≠ q._capacity - 1 := fun hc => h2 ((full_iff q hq).mpr hc)
        have := hq.prodSlack
        have := hq.cap2
        omega
      have hlen2 : absLen qc ≤ qc._capacity - 2 := by
        have := hslack
        omega
      refine ⟨write_inv qc v hqcInv hslack, ?_, ?_, rfl, rfl, rfl, rfl, ?_⟩
      · show absLen (write qc v) = absLen q + 1
        rw [absLen_write qc v hqcInv.cap2 hqcInv.rlt hqcInv.wlt
          (capacity_lt_M64 qc hqcInv) hlen2, hlenq]
      · show absList (write qc v) = absList q ++ [some v]
        rw [absList_write qc v hqcInv hlen2, hlistq]
      · show (write qc v)._slots (q._writeIndex + q._padding) = some v
        rw [write_slots_eq]
        exact if_pos rfl
  · rw [if_neg h1]
    have hslack := fast_slack q hq h1
    have hlen2 : absLen q ≤ q._capacity - 2 := by omega
    refine ⟨write_inv q v hq hslack, ?_, ?_, rfl, rfl, rfl, rfl, ?_⟩
    · exact absLen_write q v hq.cap2 hq.rlt hq.wlt (capacity_lt_M64 q hq) hlen2
    · exact absList_write q v hq hlen2
    · rw [write_slots_eq]
      exact if_pos rfl

lemma emplace_none_iff (q : SPSCQueue α) (v : α) (hq : Inv q) :
    emplace q v = none ↔ absLen q = q._capacity - 1 := by
  rw [emplace_def]
  by_cases h1 : wrapInc q._capacity q._writeIndex = q._readIndexCache
  · rw [if_pos h1]
    by_cases h2 : wrapInc q._capacity q._writeIndex = q._readIndex
    · rw [if_pos h2]
      simp only [true_iff]
      exact (full_iff q hq).mp h2
    · rw [if_neg h2]
      constructor
      · intro hc
        exact absurd hc (by simp)
      · intro hful
        exact absurd ((full_iff q hq).mpr hful) h2
  · rw [if_neg h1]
    constructor
    · intro hc
      exact absurd hc (by simp)
    · intro hful
      have hr : wrapInc q._capacity q._writeIndex = q._readIndex := (full_iff q hq).mpr hful
      have hps : rdist q._capacity q._readIndexCache q._readIndex + absLen q
          ≤ q._capacity - 1 := hq.prodSlack
      have hzero : rdist q._capacity q._readIndexCache q._readIndex = 0 := by
        have hc2 := hq.cap2
        omega
      rw [rdist_eq_zero_iff _ _ _ hq.rclt hq.rlt] at hzero
      rw [← hzero] at hr
      exact absurd hr h1

lemma emplace_some_state (q q' : SPSCQueue α) (v : α) (hq : Inv q)
    (h : emplace q v = some q') :
    Inv q' ∧
    absLen q' = absLen q + 1 ∧
    absList q' = absList q ++ [some v] ∧
    q'._readIndex = q._readIndex ∧
    q'._writeIndex = wrapInc q._capacity q._writeIndex ∧
    q'._capacity = q._capacity ∧
    q'._padding = q._padding ∧
    q'._slots (q._writeIndex + q._padding) = some v := by
  rw [emplace_def] at h
  by_cases h1 : wrapInc q._capacity q._writeIndex = q._readIndexCache
  · rw [if_pos h1] at h
    by_cases h2 : wrapInc q._capacity q._writeIndex = q._readIndex
    · rw [if_pos h2] at h
      exact absurd h (by simp)
    · rw [if_neg h2] at h
      have hq' : q' = write { q with _readIndexCache := q._readIndex } v :=
        (Option.some.injEq _ _ ▸ h).symm
      subst hq'
      set qc : SPSCQueue α := { q with _readIndexCache := q._readIndex } with hqc
      have hqcInv : Inv qc := rcache_refresh_inv q hq
      have hlenq : absLen qc = absLen q := rfl
      have hlistq : absList qc = absList q := rfl
      have hslack : rdist qc._capacity qc._readIndexCache qc._readIndex + absLen qc
          ≤ qc._capacity - 2 := by
        show rdist q._capacity q._readIndex q._readIndex + absLen qc ≤ q._capacity - 2
        rw [rdist_self, hlenq]
        have hful : absLen q ≠ q._capacity - 1 := fun hc => h2 ((full_iff q hq).mpr hc)
        have := hq.prodSlack
        have := hq.cap2
        omega
      have hlen2 : absLen qc ≤ qc._capacity - 2 := by
        have := hslack
        omega
      refine ⟨write_inv qc v hqcInv hslack, ?_, ?_, rfl, rfl, rfl, rfl, ?_⟩
      · show absLen (write qc v) = absLen q + 1
        rw [absLen_write qc v hqcInv.cap2 hqcInv.rlt hqcInv.wlt
          (capacity_lt_M64 qc hqcInv) hlen2, hlenq]
      · show absList (write qc v) = absList q ++ [some v]
        rw [absList_write qc v hqcInv hlen2, hlistq]
      · show (write qc v)._slots (q._writeIndex + q._padding) = some v
        rw [write_slots_eq]
        exact if_pos rfl
  · rw [if_neg h1] at h
    have hq' : q' = write q v := (Option.some.injEq _ _ ▸ h).symm
    subst hq'
    have hslack := fast_slack q hq h1
    have hlen2 : absLen q ≤ q._capacity - 2 := by omega
    refine ⟨write_inv q v hq hslack, ?_, ?_, rfl, rfl, rfl, rfl, ?_⟩
    · exact absLen_write q v hq.cap2 hq.rlt hq.wlt (capacity_lt_M64 q hq) hlen2
    · exact absList_write q v hq hlen2
    · rw [write_slots_eq]
      exact if_pos rfl

end SPSCQueue

namespace SPSCQueue

/-! ### Invariant preservation along reachable states -/

variable {α : Type}

lemma absLen_le_cap (q : SPSCQueue α) (hq : Inv q) : absLen q ≤ q._capacity - 1 := by
  have := hq.prodSlack
  omega

lemma step_inv (q q' : SPSCQueue α) (hq : Inv q) (hs : Step q q') : Inv q' := by
  cases hs with
  | emplaceStep _ v h => exact (emplace_some_state q q' v hq h).1
  | tryStep v =>
    by_cases hb : (try_emplace q v).1 = true
    · exact (try_emplace_true_state q v hq hb).1
    · rw [Bool.not_eq_true] at hb
      rw [try_emplace_false_state q v hb]
      exact rcache_refresh_inv q hq
  | frontStep => exact (front_state q hq).1
  | popStep h =>
    obtain ⟨hInv1, hsl, hc, hp, hr, hw, hrc, hal, hlist⟩ := front_state q hq
    obtain ⟨hl1, hl2⟩ := front_some_len q hq h
    apply pop_inv _ hInv1
    · rw [hal]
      exact hl1
    · rw [hc, hw, hal]
      exact hl2

lemma reachable_inv (q : SPSCQueue α) (h : Reachable q) : Inv q := by
  induction h with
  | start C pad hv => exact mkQueue_inv α C pad hv
  | more q0 q1 hr hs ih => exact step_inv q0 q1 ih hs

end SPSCQueue

namespace SPSCQueue

variable {α : Type}

lemma capacity_eq (q : SPSCQueue α) (h1 : 1 ≤ q._capacity) (h2 : q._capacity < M64) :
    capacity q = q._capacity - 1 := by
  unfold capacity
  rw [Nat.mod_eq_of_lt h2]
  have hM : M64 = 18446744073709551616 := rfl
  have he : q._capacity + (M64 - 1) = (q._capacity - 1) + M64 := by omega
  rw [he, Nat.add_mod_right]
  exact Nat.mod_eq_of_lt (by omega)

lemma step_capacity (q q' : SPSCQueue α) (hs : Step q q') : q'._capacity = q._capacity := by
  cases hs with
  | emplaceStep _ v h =>
    rw [emplace_def] at h
    by_cases h1 : wrapInc q._capacity q._writeIndex = q._readIndexCache
    · rw [if_pos h1] at h
      by_cases h2 : wrapInc q._capacity q._writeIndex = q._readIndex
      · rw [if_pos h2] at h
        exact absurd h (by simp)
      · rw [if_neg h2] at h
        rw [← Option.some.inj h]
        rfl
    · rw [if_neg h1] at h
      rw [← Option.some.inj h]
      rfl
  | tryStep v =>
    rw [try_emplace_def]
    split_ifs <;> rfl
  | frontStep =>
    rw [front_def]
    split_ifs <;> rfl
  | popStep h =>
    have e : (pop (front q).2)._capacity = (front q).2._capacity := rfl
    rw [e, front_def]
    split_ifs <;> rfl

lemma validParams_small : ValidParams 3 16 ∧ ValidParams 1 16 := by
  unfold ValidParams
  refine ⟨⟨?_, ?_, ?_⟩, ⟨?_, ?_, ?_⟩⟩ <;> decide

/-- A reachable state of a queue of internal capacity 2 (logical capacity 1)
holding one element: requested capacity 1, `pad = 16`, after one `push 7`. -/
def qFull : SPSCQueue Nat :=
  ⟨2, 16, fun i => if i = 16 then some 7 else none, 1, 0, 0, 0⟩

/-- C5 counterexample: for requested capacity `SIZE_MAX - 1` the constructor
clamps the internal capacity to `SIZE_MAX - 2 * pad`, so `capacity()` reports
`SIZE_MAX - 2 * pad - 1`, not the originally requested value. -/
theorem claim_C5_counterexample :
    capacity (mkQueue Nat (SMAX - 1) 16) ≠ SMAX - 1 := by decide

/-- C5 (amended): for every requested capacity below the clamping threshold
(`max C 1 + 1 ≤ SIZE_MAX - 2 * pad`), `capacity()` reports the requested
capacity coerced to at least 1, and no queue operation ever changes the
value `capacity()` reports. -/
theorem claim_C5_capacity_reported (α : Type) (C pad : Nat) (hC : C < M64)
    (h : max C 1 + 1 ≤ SMAX - 2 * pad) :
    capacity (mkQueue α C pad) = max C 1 ∧
    (∀ q q' : SPSCQueue α, Step q q' → capacity q' = capacity q) := by
  constructor
  · have hif : (if C < 1 then 1 else C) = max C 1 := by
      split <;> omega
    have hS : SMAX = 18446744073709551615 := rfl
    have hM : M64 = 18446744073709551616 := rfl
    have hcap : mkCapacity C pad = max C 1 + 1 := by
      rw [mkCapacity_eq C pad hC (by omega), hif]
    have he : (mkQueue α C pad)._capacity = mkCapacity C pad := rfl
    rw [capacity_eq (mkQueue α C pad) (by rw [he, hcap]; omega)
      (by rw [he, hcap]; omega), he, hcap]
    omega
  · intro q q' hs
    unfold capacity
    rw [step_capacity q q' hs]

theorem claim_C5_capacity_reported_w : capacity (mkQueue Nat 3 16) = max 3 1 :=
  (claim_C5_capacity_reported Nat 3 16 (by decide) (by decide)).1

/-- C6: the capacity coercion is NOT overflow-safe.  At requested capacity
`SIZE_MAX` the slack increment `_capacity++` wraps to 0 before the clamp at
line 69 is consulted, so the internal capacity becomes 0 instead of the
documented clamp value `SIZE_MAX - 2 * _padding` (the code comment at line 68,
"Prevent overflowing size_t", states the intent the code fails to meet), and
`capacity()` then reports `SIZE_MAX`. -/
theorem claim_C6_overflow_wraps :
    mkCapacity SMAX 16 = 0 ∧ SMAX - 2 * 16 ≠ 0 ∧
    capacity (mkQueue Nat SMAX 16) = SMAX := by
  refine ⟨by decide, by decide, by decide⟩

/-- C10: whenever `try_emplace` returns `false`, the queue state is unchanged
except for the producer-private read-index cache, which now holds the just
refreshed `_readIndex`: no slot changes, both cursors keep their values, and
`size`, `empty`, `front` and the abstract contents are as before the call. -/
theorem claim_C10_failure_atomic (α : Type) (q : SPSCQueue α) (v : α)
    (h : (try_emplace q v).1 = false) :
    (try_emplace q v).2._capacity = q._capacity ∧
    (try_emplace q v).2._padding = q._padding ∧
    (try_emplace q v).2._slots = q._slots ∧
    (try_emplace q v).2._writeIndex = q._writeIndex ∧
    (try_emplace q v).2._readIndex = q._readIndex ∧
    (try_emplace q v).2._writeIndexCache = q._writeIndexCache ∧
    (try_emplace q v).2._readIndexCache = q._readIndex ∧
    size (try_emplace q v).2 = size q ∧
    empty (try_emplace q v).2 = empty q ∧
    (front (try_emplace q v).2).1 = (front q).1 ∧
    absList (try_emplace q v).2 = absList q := by
  rw [try_emplace_false_state q v h]
  refine ⟨rfl, rfl, rfl, rfl, rfl, rfl, rfl, rfl, rfl, ?_, rfl⟩
  rw [front_def, front_def]
  dsimp only
  split_ifs <;> rfl

theorem claim_C10_failure_atomic_w :
    size (try_emplace qFull 9).2 = size qFull :=
  (claim_C10_failure_atomic Nat qFull 9 (by decide)).2.2.2.2.2.2.2.1

/-- C3: under the state invariant, `try_emplace` returns `false` exactly when
the queue is genuinely full (`absLen = _capacity - 1`, i.e. the logical
capacity is exhausted); on failure it performs exactly one refresh of the
cached read index from `_readIndex` and changes nothing else (no loop, no
spin, and the function is total, so no exception); otherwise it constructs
the element in the slot at `_writeIndex + _padding`, publishes the advanced
write index and returns `true`. -/
theorem claim_C3_nonblocking (α : Type) (q : SPSCQueue α) (v : α) (hq : Inv q) :
    ((try_emplace q v).1 = false ↔ absLen q = q._capacity - 1) ∧
    ((try_emplace q v).1 = false →
      (try_emplace q v).2 = { q with _readIndexCache := q._readIndex }) ∧
    ((try_emplace q v).1 = true →
      (try_emplace q v).2._slots (q._writeIndex + q._padding) = some v ∧
      (try_emplace q v).2._writeIndex = wrapInc q._capacity q._writeIndex ∧
      absList (try_emplace q v).2 = absList q ++ [some v]) := by
  refine ⟨try_emplace_false_iff q v hq, fun h => try_emplace_false_state q v h, fun h => ?_⟩
  obtain ⟨-, -, hl, -, hw, -, -, hs⟩ := try_emplace_true_state q v hq h
  exact ⟨hs, hw, hl⟩

theorem claim_C3_nonblocking_w :
    (try_emplace (mkQueue Nat 1 16) 5).1 = false ↔
      absLen (mkQueue Nat 1 16) = (mkQueue Nat 1 16)._capacity - 1 :=
  (claim_C3_nonblocking Nat (mkQueue Nat 1 16) 5
    (mkQueue_inv Nat 1 16 validParams_small.2)).1

end SPSCQueue

namespace SPSCQueue

variable {α : Type}

lemma absList_eq_nil_iff (q : SPSCQueue α) : absList q = [] ↔ absLen q = 0 := by
  unfold absList
  rw [List.map_eq_nil_iff, List.range_eq_nil]

lemma absList_head (q : SPSCQueue α) (hq : Inv q) (hlen : 1 ≤ absLen q) :
    (absList q).head? = some (q._slots (q._readIndex + q._padding)) := by
  obtain ⟨n, hn⟩ : ∃ n, absLen q = n + 1 := ⟨absLen q - 1, by omega⟩
  unfold absList
  rw [hn, List.range_succ_eq_map, List.map_cons, List.head?_cons,
    posIdx_zero q hq.rlt]

/-- C4: `front()` returns the null pointer exactly when the queue holds no
elements; a non-null result always points at the slot of the oldest inserted
not-yet-removed element (the head of the abstract contents); when `front()`
declares the queue empty it has refreshed the cached write index from
`_writeIndex` and rechecked first; immediately after construction `empty()` is
`true` and `front()` returns null. -/
theorem claim_C4_front_empty (α : Type) (q : SPSCQueue α) (hq : Inv q) (C pad : Nat)
    (hv : ValidParams C pad) :
    ((front q).1 = none ↔ absList q = []) ∧
    (∀ i, (front q).1 = some i →
      i = q._readIndex + q._padding ∧
      (absList q).head? = some ((front q).2._slots i) ∧
      absList q ≠ []) ∧
    ((front q).1 = none → (front q).2._writeIndexCache = q._writeIndex) ∧
    empty (mkQueue α C pad) = true ∧
    (front (mkQueue α C pad)).1 = none := by
  refine ⟨?_, ?_, fun h => front_none_refreshed q h, rfl, ?_⟩
  · rw [front_none_iff q hq, absList_eq_nil_iff]
  · intro i h
    have ho : ((front q).1).isSome := by rw [h]; rfl
    have hval := front_some_val q ho
    rw [h] at hval
    have hi : i = q._readIndex + q._padding := Option.some.inj hval
    obtain ⟨hlen, -⟩ := front_some_len q hq ho
    obtain ⟨-, hsl, -, -, -, -, -, -, -⟩ := front_state q hq
    refine ⟨hi, ?_, ?_⟩
    · rw [hsl, hi, absList_head q hq hlen]
    · rw [Ne, absList_eq_nil_iff]
      omega
  · rw [front_none_iff (mkQueue α C pad) (mkQueue_inv α C pad hv)]
    exact absLen_mkQueue α C pad

theorem claim_C4_front_empty_w :
    ((front (mkQueue Nat 3 16)).1 = none ↔ absList (mkQueue Nat 3 16) = []) ∧
    empty (mkQueue Nat 3 16) = true := by
  have h := claim_C4_front_empty Nat (mkQueue Nat 3 16)
    (mkQueue_inv Nat 3 16 validParams_small.1) 3 16 validParams_small.1
  exact ⟨h.1, h.2.2.2.1⟩

end SPSCQueue

namespace SPSCQueue

variable {α : Type}

lemma sizeDiff_def (q : SPSCQueue α) :
    sizeDiff q =
      if toI64 (subU64 q._writeIndex q._readIndex) < 0
      then toI64 (subU64 q._writeIndex q._readIndex) + q._capacity
      else toI64 (subU64 q._writeIndex q._readIndex) := rfl

lemma size_bounds (q : SPSCQueue α) (hq : Inv q) :
    0 ≤ sizeDiff q ∧ sizeDiff q + 1 ≤ (q._capacity : Int) ∧ (size q : Int) = sizeDiff q := by
  have hM : M64 = 18446744073709551616 := rfl
  have hH : H63 = 9223372036854775808 := rfl
  have hS : SMAX = 18446744073709551615 := rfl
  have hc2 := hq.cap2
  have hcB : q._capacity ≤ M64 - 3 := by
    have h1 := hq.capB
    have h2 := hq.pad1
    omega
  have hr := hq.rlt
  have hw := hq.wlt
  have hs : subU64 q._writeIndex q._readIndex =
      if q._readIndex ≤ q._writeIndex
      then q._writeIndex - q._readIndex
      else q._writeIndex + M64 - q._readIndex := by
    unfold subU64
    have hw2 : q._writeIndex % M64 = q._writeIndex := Nat.mod_eq_of_lt (by omega)
    have hr2 : q._readIndex % M64 = q._readIndex := Nat.mod_eq_of_lt (by omega)
    rw [hw2, hr2]
    split
    · have he : q._writeIndex + (M64 - q._readIndex)
          = (q._writeIndex - q._readIndex) + M64 := by omega
      rw [he, Nat.add_mod_right]
      exact Nat.mod_eq_of_lt (by omega)
    · rw [Nat.mod_eq_of_lt (by omega)]
      omega
  have hslt : subU64 q._writeIndex q._readIndex < M64 := by
    rw [hs]
    split <;> omega
  have hd : toI64 (subU64 q._writeIndex q._readIndex) =
      if subU64 q._writeIndex q._readIndex < H63
      then ((subU64 q._writeIndex q._readIndex : Nat) : Int)
      else ((subU64 q._writeIndex q._readIndex : Nat) : Int) - (M64 : Int) := by
    unfold toI64
    rw [Nat.mod_eq_of_lt hslt]
  unfold size
  rw [sizeDiff_def, hd, hs, hM, hH]
  by_cases hrw : q._readIndex ≤ q._writeIndex
  · rw [if_pos hrw]
    split_ifs <;> omega
  · rw [if_neg hrw]
    split_ifs <;> omega

/-- C7: in every reachable queue state the corrected signed difference computed
by `size()` lies in `[0, capacity()]`, and `size()` returns exactly that value
(so `0 ≤ size() ≤ capacity()`). -/
theorem claim_C7_size_bound (α : Type) (q : SPSCQueue α) (h : Reachable q) :
    0 ≤ sizeDiff q ∧ sizeDiff q ≤ (capacity q : Int) ∧
    (size q : Int) = sizeDiff q ∧ size q ≤ capacity q := by
  have hq := reachable_inv q h
  obtain ⟨h0, h1, h2⟩ := size_bounds q hq
  have hc2 := hq.cap2
  have hcap : capacity q = q._capacity - 1 :=
    capacity_eq q (by omega) (capacity_lt_M64 q hq)
  refine ⟨h0, ?_, h2, ?_⟩ <;> rw [hcap] <;> omega

theorem claim_C7_size_bound_w :
    size (mkQueue Nat 3 16) ≤ capacity (mkQueue Nat 3 16) :=
  (claim_C7_size_bound Nat (mkQueue Nat 3 16)
    (Reachable.start 3 16 validParams_small.1)).2.2.2

end SPSCQueue

namespace SPSCQueue

variable {α : Type}

/-- C8: in every reachable state both cursors lie in `[0, _capacity)` (the
allocated ring bound, logical capacity plus the slack slot), and every
successful insert advances `_writeIndex`, and every remove advances
`_readIndex`, by exactly one modular increment that wraps to 0 exactly at
`_capacity`, leaving the opposite cursor untouched. -/
theorem claim_C8_cursor_invariant (α : Type) (q : SPSCQueue α) (h : Reachable q) (v : α) :
    q._readIndex < q._capacity ∧ q._writeIndex < q._capacity ∧
    (∀ q', emplace q v = some q' →
      q'._writeIndex = (if q._writeIndex + 1 = q._capacity then 0 else q._writeIndex + 1) ∧
      q'._readIndex = q._readIndex) ∧
    ((try_emplace q v).1 = true →
      (try_emplace q v).2._writeIndex =
        (if q._writeIndex + 1 = q._capacity then 0 else q._writeIndex + 1) ∧
      (try_emplace q v).2._readIndex = q._readIndex) ∧
    (((front q).1).isSome →
      (pop (front q).2)._readIndex =
        (if q._readIndex + 1 = q._capacity then 0 else q._readIndex + 1) ∧
      (pop (front q).2)._writeIndex = q._writeIndex) := by
  have hq := reachable_inv q h
  have hM := capacity_lt_M64 q hq
  have hwi : wrapInc q._capacity q._writeIndex =
      if q._writeIndex + 1 = q._capacity then 0 else q._writeIndex + 1 :=
    wrapInc_eq _ _ (by have := hq.wlt; omega)
  have hri : wrapInc q._capacity q._readIndex =
      if q._readIndex + 1 = q._capacity then 0 else q._readIndex + 1 :=
    wrapInc_eq _ _ (by have := hq.rlt; omega)
  refine ⟨hq.rlt, hq.wlt, ?_, ?_, ?_⟩
  · intro q' hsome
    obtain ⟨-, -, -, hr, hw, -, -, -⟩ := emplace_some_state q q' v hq hsome
    rw [hw, hr, hwi]
    exact ⟨rfl, rfl⟩
  · intro htrue
    obtain ⟨-, -, -, hr, hw, -, -, -⟩ := try_emplace_true_state q v hq htrue
    rw [hw, hr, hwi]
    exact ⟨rfl, rfl⟩
  · intro ho
    obtain ⟨hInv1, -, hc, -, hr, hw, -, -, -⟩ := front_state q hq
    have e1 : (pop (front q).2)._readIndex =
        wrapInc (front q).2._capacity (front q).2._readIndex := rfl
    have e2 : (pop (front q).2)._writeIndex = (front q).2._writeIndex := rfl
    rw [e1, e2, hc, hr, hw, hri]
    exact ⟨rfl, rfl⟩

theorem claim_C8_cursor_invariant_w :
    (mkQueue Nat 3 16)._readIndex < (mkQueue Nat 3 16)._capacity :=
  (claim_C8_cursor_invariant Nat (mkQueue Nat 3 16)
    (Reachable.start 3 16 validParams_small.1) 0).1

end SPSCQueue

namespace SPSCQueue

variable {α : Type}

lemma tryPushList_cons (q : SPSCQueue α) (v : α) (vs : List α) :
    tryPushList q (v :: vs) =
      ((tryPushList (try_emplace q v).2 vs).1,
       (try_emplace q v).1 :: (tryPushList (try_emplace q v).2 vs).2) := rfl

lemma tryPushList_spec (vs : List α) (q : SPSCQueue α) (hq : Inv q) :
    (tryPushList q vs).2 =
      List.replicate (min vs.length (q._capacity - 1 - absLen q)) true ++
      List.replicate (vs.length - (q._capacity - 1 - absLen q)) false := by
  induction vs generalizing q with
  | nil =>
    have e1 : min ([] : List α).length (q._capacity - 1 - absLen q) = 0 := by
      simp
    have e2 : ([] : List α).length - (q._capacity - 1 - absLen q) = 0 := by
      simp
    rw [e1, e2]
    rfl
  | cons v vs ih =>
    have hcap := absLen_le_cap q hq
    have hc2 := hq.cap2
    rw [tryPushList_cons]
    simp only [List.length_cons]
    by_cases hful : absLen q = q._capacity - 1
    · have hfalse : (try_emplace q v).1 = false := (try_emplace_false_iff q v hq).mpr hful
      have hstate := try_emplace_false_state q v hfalse
      have hInv2 : Inv (try_emplace q v).2 := by
        rw [hstate]
        exact rcache_refresh_inv q hq
      have hlen2 : absLen (try_emplace q v).2 = absLen q := by rw [hstate]; rfl
      have hcap2 : (try_emplace q v).2._capacity = q._capacity := by rw [hstate]
      rw [ih _ hInv2, hfalse, hlen2, hcap2]
      have e1 : min (vs.length + 1) (q._capacity - 1 - absLen q) = 0 := by omega
      have e2 : (vs.length + 1) - (q._capacity - 1 - absLen q) = vs.length + 1 := by omega
      have e3 : min vs.length (q._capacity - 1 - absLen q) = 0 := by omega
      have e4 : vs.length - (q._capacity - 1 - absLen q) = vs.length := by omega
      rw [e1, e2, e3, e4]
      simp [List.replicate_succ]
    · have htrue : (try_emplace q v).1 = true := by
        by_cases hb : (try_emplace q v).1 = true
        · exact hb
        · rw [Bool.not_eq_true] at hb
          exact absurd ((try_emplace_false_iff q v hq).mp hb) hful
      obtain ⟨hInv2, hlen2, -, -, -, hcap2, -, -⟩ := try_emplace_true_state q v hq htrue
      rw [ih _ hInv2, htrue, hlen2, hcap2]
      have e1 : min (vs.length + 1) (q._capacity - 1 - absLen q) =
          min vs.length (q._capacity - 1 - (absLen q + 1)) + 1 := by omega
      have e2 : (vs.length + 1) - (q._capacity - 1 - absLen q) =
          vs.length - (q._capacity - 1 - (absLen q + 1)) := by omega
      rw [e1, e2, List.replicate_succ]
      rfl

/-- C2: a queue freshly constructed with logical capacity `C ≥ 1` (below the
clamp threshold, so its reported capacity is exactly `C`) accepts exactly `C`
consecutive successful `try_emplace` calls, and the `(C+1)`-th returns
`false`. -/
theorem claim_C2_capacity_bound (α : Type) (C pad : Nat) (vs : List α)
    (hC : 1 ≤ C) (hpad : 1 ≤ pad) (hnc : C + 2 + 2 * pad ≤ M64 - 1)
    (hlen : vs.length = C + 1) :
    (tryPushList (mkQueue α C pad) vs).2 = List.replicate C true ++ [false] := by
  have hM : M64 = 18446744073709551616 := rfl
  have hS : SMAX = 18446744073709551615 := rfl
  have hv : ValidParams C pad := ⟨by omega, hpad, by omega⟩
  have hin : (if C < 1 then 1 else C) = C := if_neg (by omega)
  have hcap : mkCapacity C pad = C + 1 := by
    rw [mkCapacity_eq C pad (by omega) (by rw [hin]; omega), hin]
  have e1 : (mkQueue α C pad)._capacity = mkCapacity C pad := rfl
  rw [tryPushList_spec vs (mkQueue α C pad) (mkQueue_inv α C pad hv)]
  rw [absLen_mkQueue, e1, hcap, hlen]
  have e2 : min (C + 1) (C + 1 - 1 - 0) = C := by omega
  have e3 : (C + 1) - (C + 1 - 1 - 0) = 1 := by omega
  rw [e2, e3]
  rfl

theorem claim_C2_capacity_bound_w :
    (tryPushList (mkQueue Nat 3 16) [1, 2, 3, 4]).2 =
      List.replicate 3 true ++ [false] :=
  claim_C2_capacity_bound Nat 3 16 [1, 2, 3, 4] (by decide) (by decide)
    (by decide) (by decide)

end SPSCQueue

namespace SPSCQueue

variable {α : Type}

lemma drainFuel_succ (m : Nat) (q : SPSCQueue α) :
    drainFuel (m + 1) q =
      match (front q).1 with
      | none => ((front q).2, [])
      | some i =>
        ((drainFuel m (pop (front q).2)).1, i :: (drainFuel m (pop (front q).2)).2) := rfl

lemma posList_len_zero (q : SPSCQueue α) (h : absLen q = 0) : posList q = [] := by
  unfold posList
  rw [h]
  rfl

lemma slots_none_of_len_zero (q : SPSCQueue α) (hq : Inv q) (h : absLen q = 0) :
    ∀ i, q._slots i = none := by
  intro i
  rcases hs : q._slots i with _ | v
  · rfl
  · exfalso
    have hsome : (q._slots i).isSome := by rw [hs]; rfl
    rw [hq.slotsInv i] at hsome
    obtain ⟨k, hk, -⟩ := hsome
    omega

lemma drain_spec (n : Nat) : ∀ (q : SPSCQueue α), Inv q → absLen q ≤ n →
    (drainFuel n q).2 = posList q ∧
    (∀ i, ((drainFuel n q).1)._slots i = none) ∧
    (front (drainFuel n q).1).1 = none := by
  induction n with
  | zero =>
    intro q hq hn
    have h0 : absLen q = 0 := by omega
    refine ⟨(posList_len_zero q h0).symm, ?_, ?_⟩
    · intro i
      show q._slots i = none
      exact slots_none_of_len_zero q hq h0 i
    · show (front q).1 = none
      rw [front_none_iff q hq]
      exact h0
  | succ m ih =>
    intro q hq hn
    obtain ⟨hInv1, hsl, hc, hp, hr, hw, hrc, hal, hlist⟩ := front_state q hq
    rcases ho : (front q).1 with _ | i
    · have h0 : absLen q = 0 := (front_none_iff q hq).mp ho
      have hD : drainFuel (m + 1) q = ((front q).2, []) := by
        rw [drainFuel_succ, ho]
      rw [hD]
      refine ⟨(posList_len_zero q h0).symm, ?_, ?_⟩
      · intro i2
        show (front q).2._slots i2 = none
        rw [hsl]
        exact slots_none_of_len_zero q hq h0 i2
      · show (front (front q).2).1 = none
        rw [front_none_iff (front q).2 hInv1, hal]
        exact h0
    · have hosome : ((front q).1).isSome := by rw [ho]; rfl
      obtain ⟨hlen1, hslack⟩ := front_some_len q hq hosome
      have hi : i = q._readIndex + q._padding := by
        have hv := front_some_val q hosome
        rw [ho] at hv
        exact Option.some.inj hv
      have hlen1b : 1 ≤ absLen (front q).2 := by
        rw [hal]
        exact hlen1
      have hcs1 : rdist (front q).2._capacity (front q).2._writeIndexCache
          (front q).2._writeIndex + 1 ≤ absLen (front q).2 := by
        rw [hc, hw, hal]
        exact hslack
      have hInv2 : Inv (pop (front q).2) := pop_inv (front q).2 hInv1 hlen1b hcs1
      have hal2 : absLen (pop (front q).2) = absLen q - 1 := by
        rw [absLen_pop (front q).2 hInv1.cap2 hInv1.rlt hInv1.wlt
          (capacity_lt_M64 (front q).2 hInv1) hlen1b, hal]
      have hn2 : absLen (pop (front q).2) ≤ m := by omega
      obtain ⟨ih1, ih2, ih3⟩ := ih (pop (front q).2) hInv2 hn2
      have hD : drainFuel (m + 1) q =
          ((drainFuel m (pop (front q).2)).1,
           i :: (drainFuel m (pop (front q).2)).2) := by
        rw [drainFuel_succ, ho]
      rw [hD]
      refine ⟨?_, ih2, ih3⟩
      show i :: (drainFuel m (pop (front q).2)).2 = posList q
      rw [ih1]
      have hp1 : ∀ k2, posIdx (front q).2 k2 = posIdx q k2 := by
        intro k2
        unfold posIdx
        rw [hr, hc, hp]
      have hp2 : ∀ k2, posIdx (pop (front q).2) k2 = posIdx q (k2 + 1) := by
        intro k2
        rw [posIdx_pop (front q).2 k2 hInv1.cap2 hInv1.rlt
          (capacity_lt_M64 (front q).2 hInv1), hp1]
      obtain ⟨nn, hnn⟩ : ∃ nn, absLen q = nn + 1 := ⟨absLen q - 1, by omega⟩
      unfold posList
      rw [hal2, hnn]
      simp only [Nat.add_sub_cancel]
      rw [List.range_succ_eq_map, List.map_cons, List.map_map]
      congr 1
      · rw [hi, posIdx_zero q hq.rlt]
      · apply List.map_congr_left
        intro k2 hk2
        rw [hp2]
        rfl

lemma posList_nodup (q : SPSCQueue α) (hq : Inv q) : (posList q).Nodup := by
  have hcap : absLen q ≤ q._capacity - 1 := absLen_le_cap q hq
  have hc2 := hq.cap2
  unfold posList
  refine List.Nodup.map_on ?_ (List.nodup_range _)
  intro x hx y hy hxy
  rw [List.mem_range] at hx hy
  exact posIdx_inj q x y hq.rlt (by omega) (by omega) hxy

lemma mem_posList_iff (q : SPSCQueue α) (i : Nat) :
    i ∈ posList q ↔ ∃ k, k < absLen q ∧ i = posIdx q k := by
  unfold posList
  constructor
  · intro h
    obtain ⟨k, hk, he⟩ := List.mem_map.mp h
    rw [List.mem_range] at hk
    exact ⟨k, hk, he.symm⟩
  · rintro ⟨k, hk, he⟩
    exact List.mem_map.mpr ⟨k, List.mem_range.mpr hk, he.symm⟩

/-- C9: running the destructor loop `while (front()) pop();` (with fuel
`_capacity`, which suffices) on any queue satisfying the invariant destroys
exactly the slots of the `K = absLen` live elements, each exactly once
(the destroyed-index list is duplicate-free and coincides with the constructed
slots), leaves every slot unconstructed, and ends with `front()` returning
null - so no element leaks and no unconstructed slot is ever destroyed. -/
theorem claim_C9_drain (α : Type) (q : SPSCQueue α) (hq : Inv q) :
    ((drainFuel q._capacity q).2).length = absLen q ∧
    ((drainFuel q._capacity q).2).Nodup ∧
    (∀ i, (q._slots i).isSome ↔ i ∈ (drainFuel q._capacity q).2) ∧
    (∀ i, ((drainFuel q._capacity q).1)._slots i = none) ∧
    (front (drainFuel q._capacity q).1).1 = none := by
  have hn : absLen q ≤ q._capacity := by
    have h1 := absLen_le_cap q hq
    have h2 := hq.cap2
    omega
  obtain ⟨h1, h2, h3⟩ := drain_spec q._capacity q hq hn
  refine ⟨?_, ?_, ?_, h2, h3⟩
  · rw [h1]
    unfold posList
    rw [List.length_map, List.length_range]
  · rw [h1]
    exact posList_nodup q hq
  · intro i
    rw [h1, mem_posList_iff]
    exact hq.slotsInv i

lemma inv_qFull : Inv qFull := by
  refine ⟨by decide, by decide, by decide, by decide, by decide, by decide, by decide,
    by decide, by decide, ?_⟩
  intro i
  by_cases hi : i = 16
  · subst hi
    constructor
    · intro _
      exact ⟨0, by decide, by decide⟩
    · intro _
      rfl
  · constructor
    · intro hs
      exfalso
      have hnone : qFull._slots i = none := by
        show (if i = 16 then some 7 else none) = none
        rw [if_neg hi]
      rw [hnone] at hs
      exact absurd hs (by simp)
    · rintro ⟨k, hk, he⟩
      exfalso
      have hk0 : k = 0 := by
        have : absLen qFull = 1 := by decide
        omega
      subst hk0
      have hpi : posIdx qFull 0 = 16 := by decide
      rw [hpi] at he
      exact hi he

theorem claim_C9_drain_w :
    ((drainFuel qFull._capacity qFull).2).length = absLen qFull :=
  (claim_C9_drain Nat qFull inv_qFull).1

end SPSCQueue

namespace SPSCQueue

variable {α : Type}

lemma runSched_nil (q : SPSCQueue α) (pending : List α) :
    runSched q pending [] = (q, []) := by
  cases pending <;> rfl

lemma runSched_true (q : SPSCQueue α) (v : α) (vs : List α) (rest : List Bool) :
    runSched q (v :: vs) (true :: rest) =
      match emplace q v with
      | some q' => runSched q' vs rest
      | none => (q, []) := rfl

lemma runSched_false (q : SPSCQueue α) (pending : List α) (rest : List Bool) :
    runSched q pending (false :: rest) =
      ((runSched (pop (front q).2) pending rest).1,
       deref (front q).2 (front q).1 :: (runSched (pop (front q).2) pending rest).2) := by
  cases pending <;> rfl

lemma admissible_true (capC l : Nat) (rest : List Bool) :
    admissible capC l (true :: rest)
      = (decide (l + 1 ≤ capC) && admissible capC (l + 1) rest) := rfl

lemma admissible_false (capC l : Nat) (rest : List Bool) :
    admissible capC l (false :: rest)
      = (decide (1 ≤ l) && admissible capC (l - 1) rest) := rfl

lemma absLen_eq_queued (q : SPSCQueue α) (queued : List α)
    (habs : absList q = queued.map some) : absLen q = queued.length := by
  have hl : (absList q).length = queued.length := by
    rw [habs, List.length_map]
  rw [← hl]
  unfold absList
  rw [List.length_map, List.length_range]

lemma runSched_spec (sched : List Bool) :
    ∀ (q : SPSCQueue α) (queued pending : List α),
      Inv q → absList q = queued.map some →
      admissible (q._capacity - 1) queued.length sched = true →
      sched.count true ≤ pending.length →
      (runSched q pending sched).2 =
        ((queued ++ pending).take (sched.count false)).map some := by
  induction sched with
  | nil =>
    intro q queued pending hq habs hadm hcnt
    rw [runSched_nil]
    simp
  | cons b rest ih =>
    intro q queued pending hq habs hadm hcnt
    have hlenq : absLen q = queued.length := absLen_eq_queued q queued habs
    cases b with
    | true =>
      have hct : (true :: rest).count true = rest.count true + 1 := by simp
      have hcf : (true :: rest).count false = rest.count false := by simp
      rcases pending with _ | ⟨v, vs⟩
      · exfalso
        rw [hct] at hcnt
        simp at hcnt
      rw [admissible_true, Bool.and_eq_true, decide_eq_true_iff] at hadm
      obtain ⟨hcap, hadm2⟩ := hadm
      have hnotfull : absLen q ≠ q._capacity - 1 := by omega
      obtain ⟨q', hq'⟩ : ∃ q', emplace q v = some q' := by
        rcases he : emplace q v with _ | q'
        · rw [emplace_none_iff q v hq] at he
          exact absurd he hnotfull
        · exact ⟨q', rfl⟩
      obtain ⟨hInv2, hlen2, hlist2, -, -, hcap2, -, -⟩ := emplace_some_state q q' v hq hq'
      have habs2 : absList q' = (queued ++ [v]).map some := by
        rw [hlist2, habs, List.map_append]
        rfl
      have hadm3 : admissible (q'._capacity - 1) (queued ++ [v]).length rest = true := by
        rw [hcap2, List.length_append, List.length_singleton]
        exact hadm2
      have hcnt2 : rest.count true ≤ vs.length := by
        rw [hct] at hcnt
        rw [List.length_cons] at hcnt
        omega
      have hih := ih q' (queued ++ [v]) vs hInv2 habs2 hadm3 hcnt2
      simp only [runSched_true, hq']
      rw [hih, hcf, List.append_assoc]
      rfl
    | false =>
      have hct : (false :: rest).count true = rest.count true := by simp
      have hcf : (false :: rest).count false = rest.count false + 1 := by simp
      rw [admissible_false, Bool.and_eq_true, decide_eq_true_iff] at hadm
      obtain ⟨hpos, hadm2⟩ := hadm
      rcases queued with _ | ⟨h0, t⟩
      · exfalso
        simp at hpos
      obtain ⟨hInv1, hsl, hc, hp, hr, hw, hrc, hal, hlist⟩ := front_state q hq
      have hlen1 : 1 ≤ absLen q := by
        rw [hlenq, List.length_cons]
        omega
      rcases hfo : (front q).1 with _ | i
      · exfalso
        rw [front_none_iff q hq] at hfo
        omega
      have hosome : ((front q).1).isSome := by rw [hfo]; rfl
      have hi : i = q._readIndex + q._padding := by
        have hv := front_some_val q hosome
        rw [hfo] at hv
        exact Option.some.inj hv
      have hslot : q._slots (q._readIndex + q._padding) = some h0 := by
        have hh := absList_head q hq hlen1
        rw [habs] at hh
        rw [List.map_cons, List.head?_cons] at hh
        exact (Option.some.inj hh).symm
      have hderef : deref (front q).2 (front q).1 = some h0 := by
        rw [hfo]
        show (front q).2._slots i = some h0
        rw [hsl, hi]
        exact hslot
      obtain ⟨-, hslack⟩ := front_some_len q hq hosome
      have hlen1b : 1 ≤ absLen (front q).2 := by
        rw [hal]
        exact hlen1
      have hcs1 : rdist (front q).2._capacity (front q).2._writeIndexCache
          (front q).2._writeIndex + 1 ≤ absLen (front q).2 := by
        rw [hc, hw, hal]
        exact hslack
      have hInv2 : Inv (pop (front q).2) := pop_inv (front q).2 hInv1 hlen1b hcs1
      have habs2 : absList (pop (front q).2) = t.map some := by
        rw [absList_pop (front q).2 hInv1 hlen1b, hlist, habs, List.map_cons,
          List.tail_cons]
      have hcapeq : (pop (front q).2)._capacity = q._capacity := by
        have e : (pop (front q).2)._capacity = (front q).2._capacity := rfl
        rw [e, hc]
      have hadm3 : admissible ((pop (front q).2)._capacity - 1) t.length rest = true := by
        rw [hcapeq]
        have e : (h0 :: t).length - 1 = t.length := by
          rw [List.length_cons]
          omega
        rw [← e]
        exact hadm2
      have hcnt2 : rest.count true ≤ pending.length := by
        rw [hct] at hcnt
        exact hcnt
      have hih := ih (pop (front q).2) t pending hInv2 habs2 hadm3 hcnt2
      rw [runSched_false, hih, hderef]
      show some h0 :: ((t ++ pending).take (rest.count false)).map some =
        (((h0 :: t) ++ pending).take ((false :: rest).count false)).map some
      rw [hcf, List.cons_append, List.take_succ_cons, List.map_cons]

/-- C1 (FIFO): for any admissible interleaving of `N` producer inserts
(`emplace`, the blocking variant, which completes exactly when the queue is
not full) and `N` consumer removes (`front` then `pop`, each remove only
issued when an element is available), the sequence of values observed through
the pointer returned by `front()` before each `pop()` equals the sequence of
inserted values, in insertion order. -/
theorem claim_C1_fifo (α : Type) (C pad : Nat) (hv : ValidParams C pad)
    (vs : List α) (sched : List Bool)
    (hadm : admissible (capacity (mkQueue α C pad)) 0 sched = true)
    (ht : sched.count true = vs.length) (hf : sched.count false = vs.length) :
    (runSched (mkQueue α C pad) vs sched).2 = vs.map some := by
  have hq := mkQueue_inv α C pad hv
  have habs : absList (mkQueue α C pad) = ([] : List α).map some := by
    rw [List.map_nil]
    rw [absList_eq_nil_iff]
    exact absLen_mkQueue α C pad
  have hcap : capacity (mkQueue α C pad) = (mkQueue α C pad)._capacity - 1 :=
    capacity_eq _ (by have := hq.cap2; omega) (capacity_lt_M64 _ hq)
  rw [hcap] at hadm
  have hih := runSched_spec sched (mkQueue α C pad) [] vs hq habs hadm (by omega)
  rw [hih, List.nil_append, hf, List.take_length]

theorem claim_C1_fifo_w :
    (runSched (mkQueue Nat 3 16) [10, 20] [true, false, true, false]).2 =
      [10, 20].map some :=
  claim_C1_fifo Nat 3 16 validParams_small.1 [10, 20] [true, false, true, false]
    (by decide) (by decide) (by decide)

end SPSCQueue
